import Mathlib

/-!
Verification of the spatial-preprocessing and coordinate-table-extraction core of
the pdfExtraction repository, shallowly embedded from
`src/services/spatial_preprocessor.py` and
`src/services/coordinate_table_extractor.py`.

Modelling conventions:
* Python floats are modelled as `ℚ` (all claim-relevant arithmetic is exact:
  sums, means, midpoints, absolute differences and comparisons of input
  coordinates).
* Python's `float('inf')`, used only as an open right boundary, is the `inf`
  constructor of the two-constructor type `XB` below.
* Python strings are Lean `String`s; the helpers below reimplement the exact
  Python semantics of `str.strip`, `str.split`, `str.lower`, `str.isupper`,
  `str.isdigit`, `x in s` (substring test), `str.startswith`/`endswith`,
  and `re.match` for the three anchored digit patterns the source uses.
* Python `dict`s (always built here with string keys, insertion-ordered) are
  association lists with unique keys; `dsetD` is `d[k] = v` (update first
  occurrence, else append) and `dappend` is `d[k].append(w)`.
* Python's stable `sorted(key=...)` is `List.insertionSort` with the
  corresponding non-strict key comparison, which is also stable.
-/

/-! ### Kernel-reducible rational arithmetic

`Rat.add`, `Rat.sub`, `Rat.mul` and `Rat.inv` are `@[irreducible]` upstream,
which blocks `decide` on concrete runs of the embedded program. The `q*`
functions below are reducible implementations of the same operations, each
proved equal to the standard one, and are used inside the embedding. -/

/-- Reducible rational addition. -/
def qadd (a b : ℚ) : ℚ := mkRat (a.num * b.den + b.num * a.den) (a.den * b.den)

/-- Reducible rational subtraction. -/
def qsub (a b : ℚ) : ℚ := mkRat (a.num * b.den - b.num * a.den) (a.den * b.den)

/-- Reducible rational multiplication. -/
def qmul (a b : ℚ) : ℚ := mkRat (a.num * b.num) (a.den * b.den)

/-- Reducible rational inverse (0 for 0, as in Python float division the
source never performs on a zero denominator). -/
def qinv (a : ℚ) : ℚ := Rat.divInt a.den a.num

/-- Reducible rational division. -/
def qdiv (a b : ℚ) : ℚ := qmul a (qinv b)

/-- Reducible absolute value. -/
def qabs (a : ℚ) : ℚ := if a < 0 then -a else a

/-- Python `sum(...)` over rationals: a left fold from 0. -/
def pySum (l : List ℚ) : ℚ := l.foldl qadd 0

theorem qadd_eq (a b : ℚ) : qadd a b = a + b := (Rat.add_def' a b).symm

theorem qsub_eq (a b : ℚ) : qsub a b = a - b := (Rat.sub_def' a b).symm

theorem qmul_eq (a b : ℚ) : qmul a b = a * b := by
  rw [qmul, Rat.mul_def, Rat.normalize_eq_mkRat]

theorem qinv_eq (a : ℚ) : qinv a = a⁻¹ := by
  rw [qinv, ← Rat.inv_def]; rfl

theorem qdiv_eq (a b : ℚ) : qdiv a b = a / b := by
  rw [qdiv, qmul_eq, qinv_eq, div_eq_mul_inv]

theorem qabs_eq (a : ℚ) : qabs a = |a| := by
  rw [qabs]
  rcases lt_or_le a 0 with h | h
  · rw [if_pos h, abs_of_neg h]
  · rw [if_neg (not_lt.mpr h), abs_of_nonneg h]

theorem pySum_eq (l : List ℚ) : pySum l = l.sum := by
  rw [pySum, List.sum_eq_foldl]
  exact congrFun (congrFun (congrArg List.foldl (funext fun a => funext fun b => qadd_eq a b)) 0) l

/-! ### Python string primitives -/

/-- Python `str.strip()` restricted to whitespace (the only form the source uses). -/
def pyStrip (s : String) : String :=
  ⟨((s.data.dropWhile Char.isWhitespace).reverse.dropWhile Char.isWhitespace).reverse⟩

/-- Python `str.lower()` (ASCII case mapping suffices for the source's inputs). -/
def pyLower (s : String) : String :=
  ⟨s.data.map Char.toLower⟩

/-- Splitter for Python `str.split()` (no argument): split on whitespace runs. -/
def pyWordsAux : List Char → List Char → List (List Char)
  | [], acc => if acc.isEmpty then [] else [acc.reverse]
  | c :: t, acc =>
    if c.isWhitespace then
      if acc.isEmpty then pyWordsAux t [] else acc.reverse :: pyWordsAux t []
    else pyWordsAux t (c :: acc)

/-- Python `str.split()` with no separator: tokens separated by whitespace runs. -/
def pySplit (s : String) : List String :=
  (pyWordsAux s.data []).map (fun cs => ⟨cs⟩)

/-- Does the first list occur as a leading segment of the second? -/
def leadsList : List Char → List Char → Bool
  | [], _ => true
  | _ :: _, [] => false
  | a :: as_, b :: bs => a == b && leadsList as_ bs

/-- Substring occurrence on character lists (used for Python's `needle in hay`). -/
def containsTok : List Char → List Char → Bool
  | [], needle => needle.isEmpty
  | a :: t, needle => leadsList needle (a :: t) || containsTok t needle

/-- Python `needle in hay` for strings. -/
def pyIn (needle hay : String) : Bool :=
  containsTok hay.data needle.data

/-- Python `s.endswith(t)`. -/
def pyEndsWith (s t : String) : Bool :=
  leadsList t.data.reverse s.data.reverse

/-- Python `s.startswith(t)`. -/
def pyStartsWith (s t : String) : Bool :=
  leadsList t.data s.data

/-- Python `str.isupper()`: at least one cased character and no lowercase one. -/
def pyIsUpper (cs : List Char) : Bool :=
  cs.any (fun c => c.isAlpha) && cs.all (fun c => !c.isAlpha || c.isUpper)

/-- Python `str.isdigit()`: non-empty and all digits. -/
def pyIsDigit (cs : List Char) : Bool :=
  !cs.isEmpty && cs.all (fun c => c.isDigit)

/-- `re.match(r'\d{1,2}/', ...)` step: consume one or two digits and a slash. -/
def matchD12Slash : List Char → Option (List Char)
  | a :: '/' :: rest => if a.isDigit then some rest else none
  | a :: b :: '/' :: rest => if a.isDigit && b.isDigit then some rest else none
  | _ => none

/-- Four leading digits (the `\d{4}` tail of the date pattern; `re.match` only
anchors at the start, so trailing characters are allowed). -/
def fourDigitsAtStart : List Char → Bool
  | a :: b :: c :: d :: _ => a.isDigit && b.isDigit && c.isDigit && d.isDigit
  | _ => false

/-- `re.match(r'\d{1,2}/\d{1,2}/\d{4}', text)` as a Bool. -/
def matchDate (cs : List Char) : Bool :=
  match matchD12Slash cs with
  | none => false
  | some r1 =>
    match matchD12Slash r1 with
    | none => false
    | some r2 => fourDigitsAtStart r2

/-- `re.match(r'\d{3}-\d{3}-\d{4}', text)` as a Bool. -/
def matchPhone : List Char → Bool
  | a :: b :: c :: '-' :: d :: e :: f :: '-' :: g :: h :: i :: j :: _ =>
    a.isDigit && b.isDigit && c.isDigit && d.isDigit && e.isDigit && f.isDigit &&
    g.isDigit && h.isDigit && i.isDigit && j.isDigit
  | _ => false

/-- `re.match(r'\d{3}-\d{2}-\d{4}', text)` as a Bool. -/
def matchSSN : List Char → Bool
  | a :: b :: c :: '-' :: d :: e :: '-' :: f :: g :: h :: i :: _ =>
    a.isDigit && b.isDigit && c.isDigit && d.isDigit && e.isDigit &&
    f.isDigit && g.isDigit && h.isDigit && i.isDigit
  | _ => false

/-! ### Word geometry -/

/-- A positioned word as the Python code receives it: the `text`, bounding box
`x0,y0,x1,y1` and the precomputed `center_x`/`center_y` fields that the source
reads directly from each word dict. -/
structure Word where
  text : String
  x0 : ℚ
  y0 : ℚ
  x1 : ℚ
  y1 : ℚ
  center_x : ℚ
  center_y : ℚ
deriving DecidableEq, Repr

/-- `' '.join(w['text'] for w in ws)`. -/
def joinTexts (ws : List Word) : String :=
  String.intercalate " " (ws.map (fun w => w.text))

/-- Mean of the `center_x` fields of a cluster (Python `sum(..)/len(..)`). -/
def meanCX (ws : List Word) : ℚ :=
  qdiv (pySum (ws.map (fun w => w.center_x))) ws.length

/-! ### SpatialPreprocessor (src/services/spatial_preprocessor.py) -/

/-- `SpatialPreprocessor.field_keywords` (constructor, lines 19-25). -/
def field_keywords : List String :=
  ["name", "id", "number", "no", "code", "date", "time", "status", "type",
   "group", "class", "category", "dept", "department", "title", "position",
   "employee", "emp", "staff", "person", "user", "customer", "client",
   "address", "phone", "email", "ssn", "tax", "salary", "rate", "amount",
   "total", "sum", "balance", "payment", "account", "reference", "ref"]

/-- The `field_endings` list of `is_field_pattern` (line 323). -/
def field_endings : List String :=
  [":", "#", "no", "id", "code", "name", "date", "type", "status", "group"]

/-- The `common_fields` list of `is_field_pattern` (lines 335-336). -/
def common_fields : List String :=
  ["status", "emp", "employee", "position", "title", "gender", "marital",
   "hire", "term", "supervisor", "department", "division", "location"]

/-- The last-word list of `is_field_pattern` pattern 5 (line 344). -/
def last_word_fields : List String :=
  ["id", "no", "type", "code", "date", "status", "group", "name", "title"]

/-- `is_obvious_value_pattern` (lines 349-390): single alpha letter, pure
number after deleting `.`, `,`, `-`, `/`, currency/percent, date, phone, SSN,
or a short all-uppercase token containing no field keyword. -/
def is_obvious_value_pattern (text : String) : Bool :=
  let t := pyStrip text
  let cs := t.data
  if (match cs with | [c] => c.isAlpha | _ => false) then true
  else if pyIsDigit (cs.filter (fun c => !(c == '.' || c == ',' || c == '-' || c == '/'))) then
    true
  else if pyStartsWith t "$" || pyEndsWith t "%" then true
  else if matchDate cs then true
  else if matchPhone cs then true
  else if matchSSN cs then true
  else if pyIsUpper cs && cs.length ≤ 6 &&
      !(field_keywords.any (fun k => pyIn k (pyLower t))) then true
  else false

/-- The title-case test of `is_field_pattern` pattern 3 (lines 328-332):
at least two words and at least 70% of them capitalized but not all-caps.
The Python comparison `count >= len(words) * 0.7` is modelled exactly over ℚ
(for the cluster sizes arising here the float and rational comparisons agree). -/
def titleCaseRatioOk (texts : List String) : Bool :=
  let count := (texts.filter (fun w =>
    (match w.data with | [] => false | c :: _ => c.isUpper) && !pyIsUpper w.data)).length
  2 ≤ texts.length && decide ((count : ℚ) ≥ qmul (texts.length : ℚ) (qdiv 7 10))

/-- `is_field_pattern` (lines 298-347), the ordered heuristic rule chain. -/
def is_field_pattern (word_cluster : List Word) : Bool :=
  match word_cluster with
  | [] => false
  | _ =>
    let cluster_text := String.intercalate " " (word_cluster.map (fun w => pyLower w.text))
    let original_text := joinTexts word_cluster
    if is_obvious_value_pattern original_text then false
    else if field_keywords.any (fun k => pyIn k cluster_text) then true
    else if field_endings.any (fun e => pyEndsWith cluster_text e) then true
    else if titleCaseRatioOk (word_cluster.map (fun w => w.text)) then true
    else if common_fields.any (fun k => pyIn k cluster_text) then true
    else
      match (pySplit original_text).getLast? with
      | none => false
      | some lw => last_word_fields.contains (pyLower lw)

/-- Consecutive gaps `next.x0 - current.x1` of a line (lines 269-274). -/
def gapsOf : List Word → List ℚ
  | a :: b :: t => qsub b.x0 a.x1 :: gapsOf (b :: t)
  | _ => []

/-- The clustering threshold `avg_spacing * multiplier` (lines 279-280). -/
def clusterThreshold (mult : ℚ) (line_words : List Word) : ℚ :=
  qmul (qdiv (pySum (gapsOf line_words)) (gapsOf line_words).length) mult

/-- The splitting walk of `cluster_words_by_proximity` (lines 283-296). -/
def clusterSplit (thr : ℚ) (prev : Word) (cur : List Word) : List Word → List (List Word)
  | [] => [cur]
  | w :: t =>
    if qsub w.x0 prev.x1 ≤ thr then clusterSplit thr w (cur ++ [w]) t
    else cur :: clusterSplit thr w [w] t

/-- `cluster_words_by_proximity` (lines 255-296). A line of at most one word is
returned as a single cluster; otherwise words are split wherever the gap to the
previous word exceeds `avg_gap * multiplier`. -/
def cluster_words_by_proximity (mult : ℚ) (line_words : List Word) : List (List Word) :=
  match line_words with
  | [] => [[]]
  | [w] => [[w]]
  | w :: rest => clusterSplit (clusterThreshold mult (w :: rest)) w [w] rest

/-- `line_contains_field_patterns` (lines 87-96). -/
def line_contains_field_patterns (line_words : List Word) : Bool :=
  line_words.any (fun w => is_field_pattern [w])

/-- `is_value_line_for_fields` (lines 98-127). The source counts, with an inner
`break`, how many field words have some value word within 30 x-units and
compares the count with 0; that equals this existence test. -/
def is_value_line_for_fields (field_line value_line : List Word) : Bool :=
  if field_line.isEmpty || value_line.isEmpty then false
  else field_line.any (fun f => value_line.any (fun v =>
    qabs (qsub f.center_x v.center_x) ≤ 30))

/-- One iteration of the best-value loop of `process_field_line_with_values`
(lines 164-171): the accumulator holds the tracked best text and minimal
distance (`none` = `inf`); a candidate value cluster is accepted when it is
within 50 x-units, strictly closer than the current best, and does not itself
classify as a field (a rejected field cluster leaves the minimum unchanged). -/
def bvStep (fcx : ℚ) (acc : Option String × Option ℚ) (vc : List Word) :
    Option String × Option ℚ :=
  let d := qabs (qsub fcx (meanCX vc))
  if d ≤ 50 && (match acc.2 with | none => true | some m => decide (d < m)) then
    if is_field_pattern vc then acc else (some (joinTexts vc), some d)
  else acc

/-- The best-value loop of `process_field_line_with_values` (lines 160-171). -/
def bestValueFold (fcx : ℚ) (value_clusters : List (List Word)) :
    Option String × Option ℚ :=
  value_clusters.foldl (bvStep fcx) (none, none)

/-- `process_field_line_with_values` (lines 129-182). `value_line = none`
models Python `value_line=None`; an empty list is falsy in Python, so it also
yields no value clusters. -/
def process_field_line_with_values (mult : ℚ) (field_line : List Word)
    (value_line : Option (List Word)) : String :=
  match field_line with
  | [] => ""
  | _ =>
    let field_clusters := cluster_words_by_proximity mult field_line
    let value_clusters :=
      match value_line with
      | none => []
      | some [] => []
      | some vl => cluster_words_by_proximity mult vl
    let parts := field_clusters.map (fun fc =>
      if is_field_pattern fc then
        let field_name := joinTexts fc
        match (bestValueFold (meanCX fc) value_clusters).1 with
        | some best_value => field_name ++ ":\t" ++ best_value
        | none => field_name ++ ":\t[EMPTY]"
      else joinTexts fc)
    String.intercalate "    " parts

/-- `format_as_field_cluster` (lines 392-420): `all_clusters.index(field_cluster)`
is the first index with an equal cluster (`ValueError` = `none`); the cluster at
the next index, when present and not itself a field, supplies the value. -/
def format_as_field_cluster (field_cluster : List Word)
    (all_clusters : List (List Word)) : String :=
  let field_name := joinTexts field_cluster
  match all_clusters.findIdx? (fun c => c == field_cluster) with
  | none => field_name ++ ":\t[EMPTY]"
  | some idx =>
    match (all_clusters.drop (idx + 1)).head? with
    | none => field_name ++ ":\t[EMPTY]"
    | some value_cluster =>
      if is_field_pattern value_cluster then field_name ++ ":\t[EMPTY]"
      else field_name ++ ":\t" ++ joinTexts value_cluster

/-- `process_line_for_fields` (lines 225-253). -/
def process_line_for_fields (mult : ℚ) (line_words : List Word) : String :=
  match line_words with
  | [] => ""
  | _ =>
    let word_clusters := cluster_words_by_proximity mult line_words
    let parts := word_clusters.map (fun cluster =>
      if is_field_pattern cluster then format_as_field_cluster cluster word_clusters
      else joinTexts cluster)
    String.intercalate "    " parts

/-- Fuel-indexed body of `process_multiline_fields` (lines 49-85): the while
loop's cursor advances by at least one line per iteration, so one unit of fuel
per remaining line suffices and the fuel-0 case is never reached from
`process_multiline_fields`. A field line is always formatted via
`process_field_line_with_values(current, next)`; the next line is additionally
consumed (cursor += 2) exactly when it is judged a value line. A non-field
line is formatted alone and kept only if non-blank. -/
def processMF (mult : ℚ) : Nat → List (List Word) → List String
  | 0, _ => []
  | _, [] => []
  | fuel + 1, current_line :: rest =>
    if line_contains_field_patterns current_line then
      match rest with
      | [] => [process_field_line_with_values mult current_line none]
      | next_line :: rest2 =>
        if is_value_line_for_fields current_line next_line then
          process_field_line_with_values mult current_line (some next_line) ::
            processMF mult fuel rest2
        else
          process_field_line_with_values mult current_line (some next_line) ::
            processMF mult fuel (next_line :: rest2)
    else
      let formatted_line := process_line_for_fields mult current_line
      if pyStrip formatted_line = "" then processMF mult fuel rest
      else formatted_line :: processMF mult fuel rest

/-- `process_multiline_fields` (lines 49-85). -/
def process_multiline_fields (mult : ℚ) (lines : List (List Word)) : List String :=
  processMF mult lines.length lines

/-- The `(y0, x0)` lexicographic key order of `group_words_into_lines` (line 199). -/
def byY0X0 (a b : Word) : Prop :=
  a.y0 < b.y0 ∨ (a.y0 = b.y0 ∧ a.x0 ≤ b.x0)

instance : DecidableRel byY0X0 := fun a b =>
  inferInstanceAs (Decidable (a.y0 < b.y0 ∨ (a.y0 = b.y0 ∧ a.x0 ≤ b.x0)))

/-- Key order for re-sorting a finished line by `x0` (lines 211, 220). -/
def byX0 (a b : Word) : Prop := a.x0 ≤ b.x0

instance : DecidableRel byX0 := fun a b => inferInstanceAs (Decidable (a.x0 ≤ b.x0))

/-- The line-accumulating walk of `group_words_into_lines` (lines 201-221):
`curY` is the `y0` of the first word of the current line. -/
def linesAux (ytol : ℚ) (cur : List Word) (curY : ℚ) : List Word → List (List Word)
  | [] => [List.insertionSort byX0 cur]
  | w :: rest =>
    if qabs (qsub w.y0 curY) ≤ ytol then linesAux ytol (cur ++ [w]) curY rest
    else List.insertionSort byX0 cur :: linesAux ytol [w] w.y0 rest

/-- `group_words_into_lines` (lines 184-223). -/
def group_words_into_lines (words : List Word) (y_tolerance : ℚ := 5) :
    List (List Word) :=
  match List.insertionSort byY0X0 words with
  | [] => []
  | w :: rest => linesAux y_tolerance [w] w.y0 rest

/-- `preprocess_document` (lines 27-47), with the constructor-default
proximity multiplier 2.0. -/
def preprocess_document (word_coordinates : List Word) : String :=
  match word_coordinates with
  | [] => ""
  | _ =>
    String.intercalate "\n"
      (process_multiline_fields 2 (group_words_into_lines word_coordinates))

/-! ### CoordinateTableExtractor (src/services/coordinate_table_extractor.py) -/

/-- Extended x-coordinate: a rational or `float('inf')` (used only as the open
right edge of the last column boundary). -/
inductive XB where
  | fin (q : ℚ)
  | inf
deriving DecidableEq, Repr

/-- `x < r` for an extended right edge (`x < inf` always holds). -/
def XB.ltx (x : ℚ) : XB → Prop
  | .fin q => x < q
  | .inf => True

instance (x : ℚ) : (r : XB) → Decidable (XB.ltx x r)
  | .fin q => inferInstanceAs (Decidable (x < q))
  | .inf => .isTrue trivial

/-- A located header with its extent, as built in
`_establish_column_boundaries` (lines 88-94). -/
structure HeaderPos where
  header : String
  left_x : ℚ
  right_x : ℚ
  center_x : ℚ
  words : List Word
deriving DecidableEq, Repr

/-- A column boundary record (lines 122-127). -/
structure Boundary where
  header : String
  left_x : ℚ
  right_x : XB
  header_center : ℚ
deriving DecidableEq, Repr

/-- Membership of a word center in a boundary's half-open interval
`[left_x, right_x)` (line 211). -/
def bContains (b : Boundary) (x : ℚ) : Prop :=
  b.left_x ≤ x ∧ XB.ltx x b.right_x

instance (b : Boundary) (x : ℚ) : Decidable (bContains b x) :=
  inferInstanceAs (Decidable (_ ∧ _))

/-- Sliding windows of length `n` over a word list (`words[i:i+n]` for
`i in range(len(words) - n + 1)`, lines 143-144; empty when the list is
shorter than `n`). -/
def windowsOf (n : Nat) (ws : List Word) : List (List Word) :=
  if n ≤ ws.length then (List.range (ws.length - n + 1)).map (fun i => (ws.drop i).take n)
  else []

/-- The co-linearity test of `_find_header_words` (lines 149-150):
`max(center_y) - min(center_y) <= tolerance` over a candidate window. The
empty case is unreachable (windows are non-empty there; Python would raise on
`max([])`). -/
def ySpanLe (seq : List Word) (tol : ℚ) : Bool :=
  match seq with
  | [] => true
  | w :: t =>
    decide (qsub (t.foldl (fun m v => max m v.center_y) w.center_y)
      (t.foldl (fun m v => min m v.center_y) w.center_y) ≤ tol)

/-- `_find_header_words` (lines 131-154). A single-token header matches every
word with equal stripped text; a multi-token header matches the first sliding
window with equal joined text and co-linear y-centers. A header whose text
splits into no tokens makes the Python loop evaluate `max([])` and raise
`ValueError`; that input (excluded by every claim) is modelled as no match. -/
def find_header_words (header_text : String) (words : List Word) (tol : ℚ) : List Word :=
  match pySplit header_text with
  | [] => []
  | [_] => words.filter (fun w => pyStrip w.text == pyStrip header_text)
  | header_words =>
    match (windowsOf header_words.length words).find? (fun seq =>
        pyStrip (joinTexts seq) == pyStrip header_text && ySpanLe seq tol) with
    | some seq => seq
    | none => []

/-- The located-header record for one header (lines 80-94): extent from the
min `x0` / max `x1` over all matched words. -/
def headerPos (header : String) (ws : List Word) (tol : ℚ) : Option HeaderPos :=
  match find_header_words header ws tol with
  | [] => none
  | w :: rest =>
    let left_x := rest.foldl (fun m v => min m v.x0) w.x0
    let right_x := rest.foldl (fun m v => max m v.x1) w.x1
    some { header := header, left_x := left_x, right_x := right_x,
           center_x := qdiv (qadd left_x right_x) 2, words := w :: rest }

/-- The `header_positions` list (lines 77-94): one entry per locatable header,
in request order. -/
def header_positionsOf (headers : List String) (ws : List Word) (tol : ℚ) :
    List HeaderPos :=
  headers.filterMap (fun h => headerPos h ws tol)

/-- The sort key `lambda h: h['center_x']` of line 100. -/
def byCenter (a b : HeaderPos) : Prop := a.center_x ≤ b.center_x

instance : DecidableRel byCenter := fun a b =>
  inferInstanceAs (Decidable (a.center_x ≤ b.center_x))

instance : IsTotal HeaderPos byCenter := ⟨fun a b => le_total a.center_x b.center_x⟩

instance : IsTrans HeaderPos byCenter := ⟨fun _ _ _ h1 h2 => le_trans h1 h2⟩

/-- The boundary loop of `_establish_column_boundaries` (lines 103-127) over
the already-sorted headers, carried out with the center of the previous header
(`none` for the first): the first boundary starts at 0, each later boundary
starts at the midpoint with the previous center, and each boundary ends at the
midpoint with the next center (`inf` for the last). This recursion computes
exactly the indexed `first / last / middle` case split of the source. -/
def mkBoundaries : Option ℚ → List HeaderPos → List Boundary
  | _, [] => []
  | prev, h :: rest =>
    { header := h.header
      left_x := match prev with | none => 0 | some p => qdiv (qadd p h.center_x) 2
      right_x := match rest with
        | [] => XB.inf
        | nx :: _ => XB.fin (qdiv (qadd h.center_x nx.center_x) 2)
      header_center := h.center_x } :: mkBoundaries (some h.center_x) rest

/-- `_establish_column_boundaries` (lines 70-129). -/
def establish_column_boundaries (table_headers : List String) (words : List Word)
    (tol : ℚ) : List Boundary :=
  let header_positions := header_positionsOf table_headers words tol
  if header_positions = [] then []
  else mkBoundaries none (List.insertionSort byCenter header_positions)

/-- `_find_header_row_y` (lines 188-194): the mean `center_y` of the words of
the first locatable header. -/
def find_header_row_y (table_headers : List String) (ws : List Word) (tol : ℚ) :
    Option ℚ :=
  match table_headers with
  | [] => none
  | h :: t =>
    match find_header_words h ws tol with
    | [] => find_header_row_y t ws tol
    | w :: rest =>
      some (qdiv (pySum ((w :: rest).map (fun v => v.center_y))) ((w :: rest).length : ℚ))

/-- A row as built by `_group_words_into_rows` (lines 156-186): `y_center` is
the `center_y` of the first word that opened the row. -/
structure Row where
  y_center : ℚ
  words : List Word
deriving DecidableEq, Repr

/-- Sort key `lambda w: w['center_y']` (line 164). -/
def byCy (a b : Word) : Prop := a.center_y ≤ b.center_y

instance : DecidableRel byCy := fun a b =>
  inferInstanceAs (Decidable (a.center_y ≤ b.center_y))

/-- Sort key `lambda w: w['center_x']` (line 184). -/
def byCx (a b : Word) : Prop := a.center_x ≤ b.center_x

instance : DecidableRel byCx := fun a b =>
  inferInstanceAs (Decidable (a.center_x ≤ b.center_x))

/-- The row-accumulating walk of `_group_words_into_rows` (lines 166-180). -/
def rowsAux (tol : ℚ) (cur : Row) : List Word → List Row
  | [] => [cur]
  | w :: rest =>
    if qabs (qsub w.center_y cur.y_center) ≤ tol then
      rowsAux tol { cur with words := cur.words ++ [w] } rest
    else cur :: rowsAux tol { y_center := w.center_y, words := [w] } rest

/-- `_group_words_into_rows` (lines 156-186), including the final per-row sort
of words by `center_x`. -/
def group_words_into_rows (ws : List Word) (tol : ℚ) : List Row :=
  match List.insertionSort byCy ws with
  | [] => []
  | w :: rest =>
    (rowsAux tol { y_center := w.center_y, words := [w] } rest).map
      (fun r => { r with words := List.insertionSort byCx r.words })

/-- Python `min(column_boundaries, key=...)` (lines 217-220): the first
element attaining the minimal key. -/
def pyMinBy (key : Boundary → ℚ) (b : Boundary) (rest : List Boundary) : Boundary :=
  rest.foldl (fun best c => if key c < key best then c else best) b

/-- The per-word column choice of `_extract_row_data` (lines 205-221): the
first boundary whose `[left_x, right_x)` interval contains the word center,
else the boundary with minimal `|header_center - center_x|`. The empty-list
case is unreachable from `extract_table_data` (Python `min([])` would raise);
it yields the empty string, which line 223's truthiness test would drop. -/
def assignColumn (bs : List Boundary) (x : ℚ) : String :=
  match bs.find? (fun b => decide (bContains b x)) with
  | some b => b.header
  | none =>
    match bs with
    | [] => ""
    | b :: rest => (pyMinBy (fun c => qabs (qsub c.header_center x)) b rest).header

/-- Python dict assignment `d[k] = v` on an insertion-ordered association list
with unique keys: update the existing entry, else append. -/
def dsetD {α : Type} : List (String × α) → String → α → List (String × α)
  | [], k, v => [(k, v)]
  | (k', v') :: t, k, v =>
    if k' = k then (k', v) :: t else (k', v') :: dsetD t k v

/-- Python `d[k].append(w)` (line 224). The key is always present there (every
assigned column is a boundary header); a missing key (Python `KeyError`) is
modelled as a no-op. -/
def dappend : List (String × List Word) → String → Word → List (String × List Word)
  | [], _, _ => []
  | (k', g) :: t, k, w =>
    if k' = k then (k', g ++ [w]) :: t else (k', g) :: dappend t k w

/-- The dict comprehension `{boundary['header']: [] for boundary in
column_boundaries}` (line 203); duplicate header names collapse as in a
Python dict. -/
def initGroups (bs : List Boundary) : List (String × List Word) :=
  bs.foldl (fun m b => dsetD m b.header []) []

/-- One step of the word-assignment loop of `_extract_row_data`
(lines 205-224), including line 223's `if assigned_column:` truthiness guard
(an empty-string header would be falsy and the word dropped). -/
def assignStep (bs : List Boundary) (m : List (String × List Word)) (w : Word) :
    List (String × List Word) :=
  let assigned_column := assignColumn bs w.center_x
  if assigned_column = "" then m else dappend m assigned_column w

/-- The word-assignment loop of `_extract_row_data` (lines 205-224). -/
def wordGroups (bs : List Boundary) (row_words : List Word) :
    List (String × List Word) :=
  row_words.foldl (assignStep bs) (initGroups bs)

/-- The cell-text conversion of `_extract_row_data` (lines 227-234): words
sorted by `x0`, joined with single spaces, stripped; empty → `None`. -/
def combineCell (word_group : List Word) : Option String :=
  match word_group with
  | [] => none
  | _ =>
    let combined_text := pyStrip (joinTexts (List.insertionSort byX0 word_group))
    if combined_text = "" then none else some combined_text

/-- `_extract_row_data` (lines 196-236). `row_data` is initialized with the
same keys in the same order as `column_word_groups` and then overwritten once
per key, so the final dict is the per-key image of the word groups. -/
def extract_row_data (bs : List Boundary) (row_words : List Word) :
    List (String × Option String) :=
  (wordGroups bs row_words).map (fun p => (p.1, combineCell p.2))

/-- An extraction region (`table_region` dict with optional `y_min`/`y_max`). -/
structure Region where
  y_min : Option ℚ
  y_max : Option ℚ
deriving DecidableEq, Repr

/-- `_filter_words_to_region` (lines 63-68): `region.get('y_min', 0) <=
center_y <= region.get('y_max', inf)`. -/
def filter_words_to_region (ws : List Word) (region : Region) : List Word :=
  ws.filter (fun w =>
    decide (region.y_min.getD 0 ≤ w.center_y) &&
    match region.y_max with
    | none => true
    | some m => decide (w.center_y ≤ m))

/-- The `relevant_words` selection of `extract_table_data` (line 35). -/
def relevantWords (ws : List Word) (region : Option Region) : List Word :=
  match region with
  | none => ws
  | some r => filter_words_to_region ws r

/-- The header-row skip test of `extract_table_data` (line 52):
`if header_row_y and abs(row['y_center'] - header_row_y) < self.tolerance`.
Python truthiness makes a present but zero `header_row_y` fail the first
conjunct, so no row is then skipped. -/
def skipAsHeaderRow (header_row_y : Option ℚ) (y : ℚ) (tol : ℚ) : Bool :=
  match header_row_y with
  | none => false
  | some v => decide (v ≠ 0) && decide (qabs (qsub y v) < tol)

/-- `extract_table_data` (lines 20-61). -/
def extract_table_data (word_coordinates : List Word) (tol : ℚ)
    (table_headers : List String) (table_region : Option Region) :
    List (List (String × Option String)) :=
  if table_headers = [] ∨ word_coordinates = [] then []
  else
    let relevant := relevantWords word_coordinates table_region
    let bs := establish_column_boundaries table_headers relevant tol
    if bs = [] then []
    else
      let rows := group_words_into_rows relevant tol
      let header_row_y := find_header_row_y table_headers relevant tol
      rows.filterMap (fun row =>
        if skipAsHeaderRow header_row_y row.y_center tol then none
        else if row.words = [] then none
        else
          let row_data := extract_row_data bs row.words
          if row_data.any (fun p => p.2.isSome) then some row_data else none)

/-! ### General lemmas about the embedded definitions -/

theorem processMF_nil (mult : ℚ) (fuel : Nat) : processMF mult fuel [] = [] := by
  cases fuel <;> rfl

theorem mkBoundaries_map_header (p : Option ℚ) (hs : List HeaderPos) :
    (mkBoundaries p hs).map Boundary.header = hs.map HeaderPos.header := by
  induction hs generalizing p with
  | nil => rfl
  | cons h t ih => simp [mkBoundaries, ih]

theorem mkBoundaries_map_center (p : Option ℚ) (hs : List HeaderPos) :
    (mkBoundaries p hs).map Boundary.header_center = hs.map HeaderPos.center_x := by
  induction hs generalizing p with
  | nil => rfl
  | cons h t ih => simp [mkBoundaries, ih]

theorem mkBoundaries_ne_nil (p : Option ℚ) (hs : List HeaderPos) (h : hs ≠ []) :
    mkBoundaries p hs ≠ [] := by
  cases hs with
  | nil => exact absurd rfl h
  | cons a t => simp [mkBoundaries]

theorem mkBoundaries_cons (p : Option ℚ) (h : HeaderPos) (t : List HeaderPos) :
    mkBoundaries p (h :: t) =
      { header := h.header,
        left_x := match p with | none => 0 | some q => qdiv (qadd q h.center_x) 2,
        right_x := match t with
          | [] => XB.inf
          | nx :: _ => XB.fin (qdiv (qadd h.center_x nx.center_x) 2),
        header_center := h.center_x } :: mkBoundaries (some h.center_x) t := rfl

/-- Adjacent boundaries share an edge, and the shared edge is the midpoint of
the two adjacent header centers. -/
def adjEdge (a b : Boundary) : Prop :=
  a.right_x = XB.fin b.left_x ∧ b.left_x = (a.header_center + b.header_center) / 2

theorem mkBoundaries_chain_adj (hs : List HeaderPos) (p : Option ℚ) :
    List.Chain' adjEdge (mkBoundaries p hs) := by
  induction hs generalizing p with
  | nil => exact List.chain'_nil
  | cons h t ih =>
    simp only [mkBoundaries]
    rw [List.chain'_cons']
    refine ⟨?_, ih (some h.center_x)⟩
    intro y hy
    cases t with
    | nil => simp [mkBoundaries] at hy
    | cons h2 t2 =>
      simp only [mkBoundaries, List.head?_cons, Option.mem_def, Option.some.injEq] at hy
      subst hy
      constructor
      · rfl
      · simp [qdiv_eq, qadd_eq]

theorem mkBoundaries_getLast?_inf (hs : List HeaderPos) (p : Option ℚ) (b : Boundary)
    (hb : (mkBoundaries p hs).getLast? = some b) : b.right_x = XB.inf := by
  induction hs generalizing p with
  | nil => simp [mkBoundaries] at hb
  | cons h t ih =>
    cases t with
    | nil =>
      simp only [mkBoundaries, List.getLast?_singleton, Option.some.injEq] at hb
      subst hb
      rfl
    | cons h2 t2 =>
      rw [mkBoundaries_cons] at hb
      have hstep : mkBoundaries (some h.center_x) (h2 :: t2) =
          _ :: mkBoundaries (some h2.center_x) t2 := mkBoundaries_cons _ _ _
      rw [hstep, List.getLast?_cons_cons, ← hstep] at hb
      exact ih (some h.center_x) hb

/-- Order on boundaries by left edge. -/
def leftLe (a b : Boundary) : Prop := a.left_x ≤ b.left_x

instance : IsTrans Boundary leftLe := ⟨fun _ _ _ h1 h2 => le_trans h1 h2⟩

/-- Center order on located headers as a chain relation. -/
def centerLe (a b : HeaderPos) : Prop := a.center_x ≤ b.center_x

theorem mkBoundaries_chain_left (hs : List HeaderPos) (q : ℚ)
    (hsort : List.Chain' centerLe hs)
    (hq : ∀ c ∈ hs.head?, q ≤ c.center_x) :
    List.Chain' leftLe (mkBoundaries (some q) hs) := by
  induction hs generalizing q with
  | nil => exact List.chain'_nil
  | cons h t ih =>
    simp only [mkBoundaries]
    rw [List.chain'_cons']
    rw [List.chain'_cons'] at hsort
    refine ⟨?_, ih h.center_x hsort.2 hsort.1⟩
    intro y hy
    cases t with
    | nil => simp [mkBoundaries] at hy
    | cons h2 t2 =>
      simp only [mkBoundaries, List.head?_cons, Option.mem_def, Option.some.injEq] at hy
      subst hy
      have hqh : q ≤ h.center_x := hq h (by simp)
      have hhh2 : h.center_x ≤ h2.center_x := hsort.1 h2 (by simp)
      show qdiv (qadd q h.center_x) 2 ≤ qdiv (qadd h.center_x h2.center_x) 2
      rw [qdiv_eq, qadd_eq, qdiv_eq, qadd_eq]
      linarith

/-- In a boundary list whose adjacent elements share edges, whose last right
edge is `inf`, and whose tail is sorted by left edge, every point to the right
of the first left edge lies in exactly one boundary interval. -/
theorem coverUnique : ∀ (bs : List Boundary) (x : ℚ) (hne : bs ≠ []),
    List.Chain' (fun a b => a.right_x = XB.fin b.left_x) bs →
    ((bs.getLast hne).right_x = XB.inf) →
    List.Pairwise leftLe bs.tail →
    ((bs.head hne).left_x ≤ x) →
    ∃! b, b ∈ bs ∧ bContains b x := by
  intro bs
  induction bs with
  | nil => intro x hne; exact absurd rfl hne
  | cons b rest ih =>
    intro x hne hchain hlast hpw hhead
    cases rest with
    | nil =>
      refine ⟨b, ⟨by simp, hhead, ?_⟩, ?_⟩
      · have : b.right_x = XB.inf := hlast
        rw [this]; trivial
      · rintro c ⟨hc, -⟩
        simpa using hc
    | cons b2 t =>
      rw [List.chain'_cons] at hchain
      by_cases hx : x < b2.left_x
      · refine ⟨b, ⟨by simp, hhead, ?_⟩, ?_⟩
        · rw [hchain.1]; exact hx
        · rintro c ⟨hc, hcl, -⟩
          rcases List.mem_cons.mp hc with rfl | hc2
          · rfl
          · exfalso
            have hb2c : b2.left_x ≤ c.left_x := by
              rcases List.mem_cons.mp hc2 with rfl | hc3
              · exact le_refl _
              · exact (List.pairwise_cons.mp hpw).1 c hc3
            exact absurd (le_trans hb2c hcl) (not_le.mpr hx)
      · push_neg at hx
        have hlast2 : ((b2 :: t).getLast (by simp)).right_x = XB.inf := by
          rw [← List.getLast_cons (l := b2 :: t) (by simp)]
          exact hlast
        obtain ⟨c, ⟨hcmem, hccont⟩, huniq⟩ :=
          ih x (by simp) hchain.2 hlast2 (List.Pairwise.tail hpw) hx
        refine ⟨c, ⟨List.mem_cons_of_mem _ hcmem, hccont⟩, ?_⟩
        rintro d ⟨hd, hdcont⟩
        rcases List.mem_cons.mp hd with rfl | hd2
        · exfalso
          have : x < b2.left_x := by
            have h1 := hdcont.2
            rw [hchain.1] at h1
            exact h1
          exact absurd this (not_lt.mpr hx)
        · exact huniq d ⟨hd2, hdcont⟩

theorem mkBoundaries_chain_center (hs : List HeaderPos) (p : Option ℚ)
    (hsort : List.Chain' centerLe hs) :
    List.Chain' (fun a b : Boundary => a.header_center ≤ b.header_center)
      (mkBoundaries p hs) := by
  induction hs generalizing p with
  | nil => exact List.chain'_nil
  | cons h t ih =>
    rw [mkBoundaries_cons, List.chain'_cons']
    rw [List.chain'_cons'] at hsort
    refine ⟨?_, ih (some h.center_x) hsort.2⟩
    intro y hy
    cases t with
    | nil => simp [mkBoundaries] at hy
    | cons h2 t2 =>
      rw [mkBoundaries_cons] at hy
      simp only [List.head?_cons, Option.mem_def, Option.some.injEq] at hy
      subst hy
      exact hsort.1 h2 (by simp)

theorem mkB_partition (hs : List HeaderPos) (hs_ne : hs ≠ [])
    (hsort : List.Chain' centerLe hs) :
    (∀ b, (mkBoundaries none hs).head? = some b → b.left_x = 0) ∧
    (∀ b, (mkBoundaries none hs).getLast? = some b → b.right_x = XB.inf) ∧
    List.Chain' adjEdge (mkBoundaries none hs) ∧
    List.Chain' (fun a b : Boundary => a.header_center ≤ b.header_center)
      (mkBoundaries none hs) ∧
    (∀ x : ℚ, 0 ≤ x → ∃! b, b ∈ mkBoundaries none hs ∧ bContains b x) := by
  obtain ⟨h, t, rfl⟩ : ∃ h t, hs = h :: t := by
    cases hs with
    | nil => exact absurd rfl hs_ne
    | cons h t => exact ⟨h, t, rfl⟩
  have hne' : mkBoundaries none (h :: t) ≠ [] := mkBoundaries_ne_nil _ _ (by simp)
  have hhead : ∀ b, (mkBoundaries none (h :: t)).head? = some b → b.left_x = 0 := by
    intro b hb
    rw [mkBoundaries_cons] at hb
    simp only [List.head?_cons, Option.some.injEq] at hb
    subst hb
    rfl
  refine ⟨hhead, fun b hb => mkBoundaries_getLast?_inf _ _ _ hb,
    mkBoundaries_chain_adj _ _, mkBoundaries_chain_center _ _ hsort, ?_⟩
  intro x hx
  have hsort' := List.chain'_cons'.mp hsort
  have htail : (mkBoundaries none (h :: t)).tail = mkBoundaries (some h.center_x) t := by
    rw [mkBoundaries_cons]
    rfl
  have hpw : List.Pairwise leftLe (mkBoundaries none (h :: t)).tail := by
    rw [htail]
    exact (List.chain'_iff_pairwise).mp
      (mkBoundaries_chain_left t h.center_x hsort'.2 hsort'.1)
  have hchain : List.Chain' (fun a b : Boundary => a.right_x = XB.fin b.left_x)
      (mkBoundaries none (h :: t)) :=
    (mkBoundaries_chain_adj (h :: t) none).imp (fun _ _ hab => hab.1)
  have hlast2 : ((mkBoundaries none (h :: t)).getLast hne').right_x = XB.inf := by
    apply mkBoundaries_getLast?_inf (h :: t) none
    exact (List.getLast?_eq_getLast _ hne')
  have hheadle : ((mkBoundaries none (h :: t)).head hne').left_x ≤ x := by
    have := hhead _ (List.head?_eq_head hne')
    rw [this]
    exact hx
  exact coverUnique _ x hne' hchain hlast2 hpw hheadle

theorem establish_eq_mkB (headers : List String) (words : List Word) (tol : ℚ)
    (h0 : header_positionsOf headers words tol ≠ []) :
    establish_column_boundaries headers words tol =
      mkBoundaries none
        (List.insertionSort byCenter (header_positionsOf headers words tol)) := by
  rw [establish_column_boundaries]
  simp [h0]

theorem establish_sort_ne_nil (headers : List String) (words : List Word) (tol : ℚ)
    (h0 : header_positionsOf headers words tol ≠ []) :
    List.insertionSort byCenter (header_positionsOf headers words tol) ≠ [] := by
  intro hcon
  apply h0
  have := (List.perm_insertionSort byCenter (header_positionsOf headers words tol)).length_eq
  rw [hcon] at this
  exact List.eq_nil_of_length_eq_zero this.symm

/-- C1: for every non-empty set of located headers the column boundaries,
already produced in ascending header-center order, partition `[0, ∞)`: the
first boundary's left edge is 0, the last boundary's right edge is `inf`,
every adjacent pair shares exactly the midpoint of the two header centers as
its common edge, and every `x ≥ 0` lies in exactly one half-open interval
`[left_x, right_x)` (no gaps, no overlaps). -/
theorem C1_boundary_partition (headers : List String) (words : List Word) (tol : ℚ)
    (hne : establish_column_boundaries headers words tol ≠ []) :
    ((establish_column_boundaries headers words tol).head hne).left_x = 0 ∧
    ((establish_column_boundaries headers words tol).getLast hne).right_x = XB.inf ∧
    List.Chain' adjEdge (establish_column_boundaries headers words tol) ∧
    List.Chain' (fun a b : Boundary => a.header_center ≤ b.header_center)
      (establish_column_boundaries headers words tol) ∧
    (∀ x : ℚ, 0 ≤ x →
      ∃! b, b ∈ establish_column_boundaries headers words tol ∧ bContains b x) := by
  by_cases h0 : header_positionsOf headers words tol = []
  · exfalso
    apply hne
    rw [establish_column_boundaries]
    simp [h0]
  · have heq := establish_eq_mkB headers words tol h0
    have hsne := establish_sort_ne_nil headers words tol h0
    have hsort : List.Chain' centerLe
        (List.insertionSort byCenter (header_positionsOf headers words tol)) :=
      (List.sorted_insertionSort byCenter (header_positionsOf headers words tol)).chain'
    obtain ⟨p1, p2, p3, p4, p5⟩ := mkB_partition _ hsne hsort
    refine ⟨?_, ?_, ?_, ?_, ?_⟩
    · apply p1
      rw [← heq]
      exact List.head?_eq_head hne
    · apply p2
      rw [← heq]
      exact List.getLast?_eq_getLast _ hne
    · rw [heq]; exact p3
    · rw [heq]; exact p4
    · rw [heq]; exact p5

def c1hw1 : Word :=
  { text := "Code", x0 := 90, y0 := 10, x1 := 110, y1 := 20, center_x := 100, center_y := 10 }

def c1hw2 : Word :=
  { text := "Amount", x0 := 290, y0 := 10, x1 := 310, y1 := 20, center_x := 300, center_y := 10 }

/-- Witness for C1 at the spec's Scenario C headers. -/
theorem C1_boundary_partition_w :
    establish_column_boundaries ["Code", "Amount"] [c1hw1, c1hw2] 5 ≠ [] ∧
    (∃! b, b ∈ establish_column_boundaries ["Code", "Amount"] [c1hw1, c1hw2] 5 ∧
      bContains b 190) :=
  ⟨by decide, (C1_boundary_partition ["Code", "Amount"] [c1hw1, c1hw2] 5
    (by decide)).2.2.2.2 190 (by decide)⟩

/-- C8: empty input yields empty output and never an error at every public
entry point: `preprocess_document` on no words returns the empty string,
`group_words_into_lines` on no words returns no lines, and
`extract_table_data` returns no rows whenever the header list is empty, the
word list is empty, or no column boundary can be established on the
region-filtered words. -/
theorem C8_empty_inputs :
    preprocess_document [] = "" ∧
    group_words_into_lines [] 5 = [] ∧
    (∀ (words : List Word) (tol : ℚ) (region : Option Region),
      extract_table_data words tol [] region = []) ∧
    (∀ (headers : List String) (tol : ℚ) (region : Option Region),
      extract_table_data [] tol headers region = []) ∧
    (∀ (words : List Word) (tol : ℚ) (headers : List String) (region : Option Region),
      establish_column_boundaries headers (relevantWords words region) tol = [] →
      extract_table_data words tol headers region = []) := by
  refine ⟨rfl, rfl, ?_, ?_, ?_⟩
  · intro words tol region
    simp [extract_table_data]
  · intro headers tol region
    simp [extract_table_data]
  · intro words tol headers region h
    rw [extract_table_data]
    split
    · rfl
    · simp [h]

def c8w : Word :=
  { text := "Y", x0 := 0, y0 := 0, x1 := 10, y1 := 10, center_x := 5, center_y := 5 }

/-- Witness for C8: a word list in which the requested header cannot be
located produces no boundaries and hence no rows. -/
theorem C8_empty_inputs_w :
    establish_column_boundaries ["X"] (relevantWords [c8w] none) 5 = [] ∧
    extract_table_data [c8w] 5 ["X"] none = [] :=
  ⟨by decide, C8_empty_inputs.2.2.2.2 [c8w] 5 ["X"] none (by decide)⟩

def c5name : Word :=
  { text := "Name:", x0 := 0, y0 := 0, x1 := 50, y1 := 10, center_x := 25, center_y := 5 }

def c5john : Word :=
  { text := "John", x0 := 200, y0 := 0, x1 := 240, y1 := 10, center_x := 220, center_y := 5 }

def c5doe : Word :=
  { text := "Doe", x0 := 239, y0 := 0, x1 := 270, y1 := 10, center_x := mkRat 509 2, center_y := 5 }

def c5johnl : Word :=
  { text := "john", x0 := 200, y0 := 0, x1 := 240, y1 := 10, center_x := 220, center_y := 5 }

def c5doel : Word :=
  { text := "doe", x0 := 239, y0 := 0, x1 := 270, y1 := 10, center_x := mkRat 509 2, center_y := 5 }

/-- C5 counterexample: a line clustering into `["Name:"]` then `["John","Doe"]`
is not formatted as `"Name:\tJohn Doe"`. -/
theorem C5_verbatim_counterexample :
    cluster_words_by_proximity 2 [c5name, c5john, c5doe] = [[c5name], [c5john, c5doe]] ∧
    joinTexts [c5name] = "Name:" ∧ joinTexts [c5john, c5doe] = "John Doe" ∧
    process_line_for_fields 2 [c5name, c5john, c5doe] ≠ "Name:\tJohn Doe" := by decide

/-- C5 (amended): for the line clustering into `["Name:"]` then
`["John","Doe"]` the formatter appends `":\t"` to the field cluster text, so
the trailing colon of `"Name:"` is doubled; moreover `["John","Doe"]` itself
classifies as a field (Title-Case rule), so the first field is paired with
`[EMPTY]` instead of the value, giving
`"Name::\t[EMPTY]    John Doe:\t[EMPTY]"`. With a value cluster that does not
classify as a field (`["john","doe"]`) the value is used but the colon is
still doubled (the value cluster is also emitted on its own):
`"Name::\tjohn doe    john doe"`. -/
theorem C5_colon_amended :
    cluster_words_by_proximity 2 [c5name, c5john, c5doe] = [[c5name], [c5john, c5doe]] ∧
    is_field_pattern [c5john, c5doe] = true ∧
    process_line_for_fields 2 [c5name, c5john, c5doe] =
      "Name::\t[EMPTY]    John Doe:\t[EMPTY]" ∧
    cluster_words_by_proximity 2 [c5name, c5johnl, c5doel] = [[c5name], [c5johnl, c5doel]] ∧
    is_field_pattern [c5johnl, c5doel] = false ∧
    process_line_for_fields 2 [c5name, c5johnl, c5doel] =
      "Name::\tjohn doe    john doe" := by decide

def c6w1 : Word :=
  { text := "foo", x0 := 0, y0 := 0, x1 := 10, y1 := 10, center_x := 5, center_y := 5 }

def c6w2 : Word :=
  { text := "bar", x0 := 10, y0 := 0, x1 := 20, y1 := 10, center_x := 15, center_y := 5 }

/-- C6 counterexample: a two-word line whose only gap is 0 has threshold 0,
and the gap does not exceed the threshold, so the words stay in one cluster
instead of becoming singletons. -/
theorem C6_zero_gap_counterexample :
    gapsOf [c6w1, c6w2] = [0] ∧
    cluster_words_by_proximity 2 [c6w1, c6w2] = [[c6w1, c6w2]] ∧
    cluster_words_by_proximity 2 [c6w1, c6w2] ≠ [[c6w1], [c6w2]] := by decide

theorem list_sum_nonpos : ∀ (l : List ℚ), (∀ g ∈ l, g ≤ 0) → l.sum ≤ 0 := by
  intro l
  induction l with
  | nil => intro _; simp
  | cons a t ih =>
    intro h
    rw [List.sum_cons]
    have ha := h a (by simp)
    have ht := ih (fun g hg => h g (List.mem_cons_of_mem _ hg))
    linarith

theorem gapsOf_of_chain (g : ℚ) :
    ∀ (l : List Word), List.Chain' (fun a b => b.x0 - a.x1 = g) l →
      gapsOf l = List.replicate (l.length - 1) g := by
  intro l
  induction l with
  | nil => intro _; rfl
  | cons a t ih =>
    intro h
    cases t with
    | nil => rfl
    | cons b t2 =>
      rw [List.chain'_cons] at h
      have : qsub b.x0 a.x1 = g := by rw [qsub_eq]; exact h.1
      simp only [gapsOf, this, ih h.2, List.length_cons]
      rfl

theorem clusterSplit_all (g thr : ℚ) (hthr : ¬ g ≤ thr) :
    ∀ (t : List Word) (prev : Word) (cur : List Word),
      List.Chain' (fun a b => b.x0 - a.x1 = g) (prev :: t) →
      clusterSplit thr prev cur t = cur :: t.map (fun w => [w]) := by
  intro t
  induction t with
  | nil => intro prev cur _; rfl
  | cons w t2 ih =>
    intro prev cur h
    rw [List.chain'_cons] at h
    have hg : qsub w.x0 prev.x1 = g := by rw [qsub_eq]; exact h.1
    rw [clusterSplit, hg, if_neg hthr, ih w [w] h.2]
    rfl

/-- C6 (amended): when every consecutive gap of a line of at least two words
is 0 or negative the clustering threshold is indeed ≤ 0, but words become
singleton clusters only where a gap strictly exceeds the threshold; in
particular, with every gap equal to one strictly negative value each word is
its own cluster, whereas (per the counterexample) all-zero gaps keep the line
in a single cluster. -/
theorem C6_amended :
    (∀ (line : List Word), 2 ≤ line.length → (∀ g ∈ gapsOf line, g ≤ 0) →
      clusterThreshold 2 line ≤ 0) ∧
    (∀ (line : List Word) (g : ℚ), g < 0 → 2 ≤ line.length →
      List.Chain' (fun a b => b.x0 - a.x1 = g) line →
      cluster_words_by_proximity 2 line = line.map (fun w => [w])) := by
  constructor
  · intro line _ hg
    rw [clusterThreshold, qmul_eq, qdiv_eq, pySum_eq]
    have hsum : (gapsOf line).sum ≤ 0 := list_sum_nonpos _ hg
    have hlen : (0:ℚ) ≤ ((gapsOf line).length : ℚ) := by positivity
    have : (gapsOf line).sum / ((gapsOf line).length : ℚ) ≤ 0 :=
      div_nonpos_iff.mpr (Or.inr ⟨hsum, hlen⟩)
    linarith
  · intro line g hgneg hlen hchain
    cases line with
    | nil => simp at hlen
    | cons w rest =>
      cases rest with
      | nil => simp at hlen
      | cons w2 rest2 =>
        have hrep := gapsOf_of_chain g (w :: w2 :: rest2) hchain
        have hthr : clusterThreshold 2 (w :: w2 :: rest2) = g * 2 := by
          rw [clusterThreshold, qmul_eq, qdiv_eq, pySum_eq, hrep]
          have hk : ((w :: w2 :: rest2).length - 1) = rest2.length + 1 := by
            simp
          rw [hk, List.sum_replicate, List.length_replicate, nsmul_eq_mul]
          have hkne : ((rest2.length + 1 : Nat) : ℚ) ≠ 0 := by positivity
          field_simp
        have hnotle : ¬ g ≤ clusterThreshold 2 (w :: w2 :: rest2) := by
          rw [hthr]
          intro hcon
          nlinarith
        have hstep : cluster_words_by_proximity 2 (w :: w2 :: rest2) =
            clusterSplit (clusterThreshold 2 (w :: w2 :: rest2)) w [w] (w2 :: rest2) := rfl
        rw [hstep, clusterSplit_all g _ hnotle (w2 :: rest2) w [w] hchain]
        rfl

def c6v1 : Word :=
  { text := "ov1", x0 := 0, y0 := 0, x1 := 10, y1 := 10, center_x := 5, center_y := 5 }

def c6v2 : Word :=
  { text := "ov2", x0 := 9, y0 := 0, x1 := 19, y1 := 10, center_x := 14, center_y := 5 }

/-- Witness for the amended C6: two words overlapping by 1 unit (gap −1) each
become their own cluster. -/
theorem C6_amended_w :
    (-1 : ℚ) < 0 ∧ 2 ≤ ([c6v1, c6v2] : List Word).length ∧
    cluster_words_by_proximity 2 [c6v1, c6v2] = [[c6v1], [c6v2]] :=
  ⟨by norm_num, by decide,
    C6_amended.2 [c6v1, c6v2] (-1) (by norm_num) (by decide)
      (by simp [List.chain'_cons, c6v1, c6v2]; norm_num)⟩

def c3w : Word :=
  { text := "Code", x0 := 90, y0 := -5, x1 := 110, y1 := 5, center_x := 100, center_y := 0 }

/-- C3 (code bug): when the located header row's y-center is exactly 0, the
guard `if header_row_y and ...` treats the found value 0.0 as absent, so the
header row itself — whose y-center is trivially within tolerance of the
header row y — is returned as a data row instead of being excluded. -/
theorem C3_zero_header_row_bug :
    find_header_row_y ["Code"] [c3w] 5 = some 0 ∧
    group_words_into_rows [c3w] 5 = [{ y_center := 0, words := [c3w] }] ∧
    extract_table_data [c3w] 5 ["Code"] none = [[("Code", some "Code")]] := by decide

theorem processMF_fuelIrrel (mult : ℚ) :
    ∀ (f1 f2 : Nat) (lines : List (List Word)),
      lines.length ≤ f1 → lines.length ≤ f2 →
      processMF mult f1 lines = processMF mult f2 lines := by
  intro f1
  induction f1 with
  | zero =>
    intro f2 lines h1 _
    have : lines = [] := List.eq_nil_of_length_eq_zero (Nat.le_zero.mp h1)
    subst this
    rw [processMF_nil, processMF_nil]
  | succ n ih =>
    intro f2 lines h1 h2
    cases lines with
    | nil => rw [processMF_nil, processMF_nil]
    | cons cur rest =>
      cases f2 with
      | zero => simp at h2
      | succ m =>
        have hr1 : rest.length ≤ n := by simpa using h1
        have hr2 : rest.length ≤ m := by simpa using h2
        cases rest with
        | nil =>
          simp only [processMF, processMF_nil]
        | cons next rest2 =>
          have hr21 : rest2.length ≤ n := le_trans (by simp) hr1
          have hr22 : rest2.length ≤ m := le_trans (by simp) hr2
          simp only [processMF]
          rw [ih m rest2 hr21 hr22, ih m (next :: rest2) hr1 hr2]

theorem pmf_cons_cons (mult : ℚ) (cur next : List Word) (rest : List (List Word))
    (hf : line_contains_field_patterns cur = true) :
    process_multiline_fields mult (cur :: next :: rest) =
      process_field_line_with_values mult cur (some next) ::
        (if is_value_line_for_fields cur next then
          process_multiline_fields mult rest
        else
          process_multiline_fields mult (next :: rest)) := by
  rw [process_multiline_fields]
  show processMF mult (rest.length + 1 + 1) _ = _
  simp only [processMF, hf, if_true]
  by_cases hv : is_value_line_for_fields cur next = true
  · rw [if_pos hv, if_pos hv]
    rw [process_multiline_fields]
    rw [processMF_fuelIrrel mult (rest.length + 1) rest.length rest (by simp) le_rfl]
  · rw [if_neg hv, if_neg hv]
    rw [process_multiline_fields]
    simp only [List.length_cons, processMF]

def c4name : Word :=
  { text := "Name:", x0 := 0, y0 := 0, x1 := 0, y1 := 10, center_x := 0, center_y := 5 }

def c4ab : Word :=
  { text := "ab", x0 := 30, y0 := 20, x1 := 40, y1 := 30, center_x := 35, center_y := 25 }

def c4cd : Word :=
  { text := "cd", x0 := 60, y0 := 20, x1 := 70, y1 := 30, center_x := 65, center_y := 25 }

/-- C4 counterexample: a field line whose next line is not judged a value line
(no word within 30 x-units) is still formatted by
`process_field_line_with_values(line, next_line)` — here the next line's
cluster mean lies within the 50-unit pairing tolerance, so the emitted text
`"Name::\tab cd"` references the next line and differs from
`process_line_for_fields` applied to the line alone (`"Name::\t[EMPTY]"`). -/
theorem C4_same_line_counterexample :
    line_contains_field_patterns [c4name] = true ∧
    is_value_line_for_fields [c4name] [c4ab, c4cd] = false ∧
    process_multiline_fields 2 [[c4name], [c4ab, c4cd]] = ["Name::\tab cd", "ab cd"] ∧
    process_line_for_fields 2 [c4name] = "Name::\t[EMPTY]" ∧
    process_multiline_fields 2 [[c4name], [c4ab, c4cd]] ≠
      process_line_for_fields 2 [c4name] :: process_multiline_fields 2 [[c4ab, c4cd]] := by
  decide

/-- C4 (amended): in the line walk, a line containing field patterns is always
formatted by `process_field_line_with_values(line, next_line)` — computed with
the next line passed in; when the next line is not judged a value line only
the cursor advance differs (1 instead of 2), not the formatter used. -/
theorem C4_cursor_amended (mult : ℚ) (cur next : List Word) (rest : List (List Word))
    (hf : line_contains_field_patterns cur = true) :
    (is_value_line_for_fields cur next = false →
      process_multiline_fields mult (cur :: next :: rest) =
        process_field_line_with_values mult cur (some next) ::
          process_multiline_fields mult (next :: rest)) ∧
    (is_value_line_for_fields cur next = true →
      process_multiline_fields mult (cur :: next :: rest) =
        process_field_line_with_values mult cur (some next) ::
          process_multiline_fields mult rest) := by
  constructor
  · intro hv
    rw [pmf_cons_cons mult cur next rest hf, hv]
    simp
  · intro hv
    rw [pmf_cons_cons mult cur next rest hf, hv]
    simp

/-- Witness for the amended C4 at the counterexample input. -/
theorem C4_cursor_amended_w :
    line_contains_field_patterns [c4name] = true ∧
    is_value_line_for_fields [c4name] [c4ab, c4cd] = false ∧
    process_multiline_fields 2 [[c4name], [c4ab, c4cd]] =
      process_field_line_with_values 2 [c4name] (some [c4ab, c4cd]) ::
        process_multiline_fields 2 [[c4ab, c4cd]] :=
  ⟨by decide, by decide,
    (C4_cursor_amended 2 [c4name] [c4ab, c4cd] [] (by decide)).1 (by decide)⟩

def c9code1 : Word :=
  { text := "Code", x0 := 90, y0 := 5, x1 := 110, y1 := 15, center_x := 100, center_y := 10 }

def c9amt : Word :=
  { text := "Amt", x0 := 490, y0 := 5, x1 := 510, y1 := 15, center_x := 500, center_y := 10 }

def c9code2 : Word :=
  { text := "Code", x0 := 190, y0 := 45, x1 := 210, y1 := 55, center_x := 200, center_y := 50 }

def c9words : List Word := [c9code1, c9amt, c9code2]

/-- C9: a single-token header matches every word of the word list with equal
stripped text, not only words on the header line; hence with "Code" occurring
both on the header line (x [90,110], y-center 10) and as a cell value
(x [190,210], y-center 50), the column extent spans min x0 = 90 to
max x1 = 210 (center 150), and the header-row y used for row exclusion is the
mean 30 of both occurrences. -/
theorem C9_page_wide_header_match :
    (∀ (h : String) (ws : List Word) (tol : ℚ) (t : String),
        pySplit h = [t] →
        find_header_words h ws tol = ws.filter (fun w => pyStrip w.text == pyStrip h)) ∧
    find_header_words "Code" c9words 5 = [c9code1, c9code2] ∧
    establish_column_boundaries ["Code", "Amt"] c9words 5 =
      [{ header := "Code", left_x := 0, right_x := XB.fin 325, header_center := 150 },
       { header := "Amt", left_x := 325, right_x := XB.inf, header_center := 500 }] ∧
    find_header_row_y ["Code", "Amt"] c9words 5 = some 30 := by
  refine ⟨?_, by decide, by decide, by decide⟩
  intro h ws tol t hsplit
  rw [find_header_words.eq_def, hsplit]

/-- Witness for C9's single-token part at the header "Code". -/
theorem C9_page_wide_header_match_w :
    pySplit "Code" = ["Code"] ∧
    find_header_words "Code" c9words 5 =
      c9words.filter (fun w => pyStrip w.text == pyStrip "Code") :=
  ⟨by decide, C9_page_wide_header_match.1 "Code" c9words 5 "Code" (by decide)⟩

theorem bvFold_sound (fcx : ℚ) :
    ∀ (vcs : List (List Word)) (acc : Option String × Option ℚ) (t : String),
      (vcs.foldl (bvStep fcx) acc).1 = some t →
      acc.1 = some t ∨
        ∃ vc ∈ vcs, t = joinTexts vc ∧ is_field_pattern vc = false ∧
          |fcx - meanCX vc| ≤ 50 := by
  intro vcs
  induction vcs with
  | nil => intro acc t h; exact Or.inl h
  | cons vc rest ih =>
    intro acc t h
    rw [List.foldl_cons] at h
    rcases ih (bvStep fcx acc vc) t h with h1 | h2
    · rw [bvStep] at h1
      by_cases hcond : (decide (qabs (qsub fcx (meanCX vc)) ≤ 50) &&
          (match acc.2 with | none => true | some m => decide (qabs (qsub fcx (meanCX vc)) < m))) = true
      · rw [if_pos hcond] at h1
        by_cases hfp : is_field_pattern vc = true
        · rw [if_pos hfp] at h1
          exact Or.inl h1
        · rw [if_neg hfp] at h1
          simp only [Option.some.injEq] at h1
          refine Or.inr ⟨vc, by simp, h1.symm, by simpa using hfp, ?_⟩
          have hle : qabs (qsub fcx (meanCX vc)) ≤ 50 := by
            have := (Bool.and_eq_true _ _).mp hcond
            exact of_decide_eq_true this.1
          rw [qabs_eq, qsub_eq] at hle
          exact hle
      · rw [if_neg hcond] at h1
        exact Or.inl h1
    · obtain ⟨vc2, hmem, hrest⟩ := h2
      exact Or.inr ⟨vc2, List.mem_cons_of_mem _ hmem, hrest⟩

def c10name : Word :=
  { text := "Name:", x0 := 0, y0 := 0, x1 := 40, y1 := 10, center_x := 20, center_y := 5 }

def c10john : Word :=
  { text := "John", x0 := 0, y0 := 20, x1 := 40, y1 := 30, center_x := 20, center_y := 25 }

def c10e1 : Word :=
  { text := "Employee", x0 := 140, y0 := 20, x1 := 180, y1 := 30, center_x := 160, center_y := 25 }

def c10e2 : Word :=
  { text := "Status", x0 := 180, y0 := 20, x1 := 220, y1 := 30, center_x := 200, center_y := 25 }

def c10e3 : Word :=
  { text := "Values", x0 := 220, y0 := 20, x1 := 260, y1 := 30, center_x := 240, center_y := 25 }

def c10e4 : Word :=
  { text := "Here", x0 := 260, y0 := 20, x1 := 300, y1 := 30, center_x := 280, center_y := 25 }

def c10zzz : Word :=
  { text := "zzz", x0 := 400, y0 := 20, x1 := 420, y1 := 30, center_x := 410, center_y := 25 }

def c10words : List Word := [c10name, c10john, c10e1, c10e2, c10e3, c10e4, c10zzz]

/-- C10: when a field line is consumed together with its value line, value-line
text can enter the output only as the best-matching value of some field
cluster — a cluster must be a non-field within 50 x-units of the field
cluster's mean to be chosen — so a value-line cluster that classifies as a
field (`["Employee","Status","Values","Here"]`) or lies farther than 50 units
(`["zzz"]`) appears nowhere in the returned string, and
`preprocess_document` does not preserve all input words. -/
theorem C10_value_line_pruning :
    (∀ (fcx : ℚ) (vcs : List (List Word)) (t : String),
        (bestValueFold fcx vcs).1 = some t →
        ∃ vc ∈ vcs, t = joinTexts vc ∧ is_field_pattern vc = false ∧
          |fcx - meanCX vc| ≤ 50) ∧
    preprocess_document c10words = "Name::\tJohn" ∧
    c10zzz ∈ c10words ∧
    pyIn "zzz" (preprocess_document c10words) = false ∧
    is_field_pattern [c10e1, c10e2, c10e3, c10e4] = true ∧
    pyIn "Employee" (preprocess_document c10words) = false := by
  refine ⟨?_, by decide, by decide, by decide, by decide, by decide⟩
  intro fcx vcs t h
  rcases bvFold_sound fcx vcs (none, none) t h with h1 | h2
  · exact absurd h1 (by simp)
  · exact h2

/-- Witness for C10's best-value provenance at a one-cluster value line. -/
theorem C10_value_line_pruning_w :
    (bestValueFold 20 [[c10john]]).1 = some "John" ∧
    ∃ vc ∈ [[c10john]], "John" = joinTexts vc ∧ is_field_pattern vc = false ∧
      |(20:ℚ) - meanCX vc| ≤ 50 :=
  ⟨by decide, C10_value_line_pruning.1 20 [[c10john]] "John" (by decide)⟩

theorem pyMinBy_mem (key : Boundary → ℚ) :
    ∀ (rest : List Boundary) (b : Boundary), pyMinBy key b rest ∈ b :: rest := by
  intro rest
  induction rest with
  | nil => intro b; simp [pyMinBy]
  | cons c t ih =>
    intro b
    simp only [pyMinBy, List.foldl_cons]
    by_cases h : key c < key b
    · rw [if_pos h]
      have h2 := ih c
      simp only [pyMinBy] at h2
      rcases List.mem_cons.mp h2 with h3 | h3
      · exact List.mem_cons_of_mem _ (by rw [h3]; exact List.mem_cons_self _ _)
      · exact List.mem_cons_of_mem _ (List.mem_cons_of_mem _ h3)
    · rw [if_neg h]
      have h2 := ih b
      simp only [pyMinBy] at h2
      rcases List.mem_cons.mp h2 with h3 | h3
      · rw [h3]; exact List.mem_cons_self _ _
      · exact List.mem_cons_of_mem _ (List.mem_cons_of_mem _ h3)

theorem assignColumn_mem (bs : List Boundary) (x : ℚ) (hne : bs ≠ []) :
    assignColumn bs x ∈ bs.map Boundary.header := by
  rw [assignColumn.eq_def]
  cases hfind : bs.find? (fun b => decide (bContains b x)) with
  | some b => exact List.mem_map_of_mem _ (List.mem_of_find?_eq_some hfind)
  | none =>
    cases bs with
    | nil => exact absurd rfl hne
    | cons b rest => exact List.mem_map_of_mem _ (pyMinBy_mem _ rest b)

theorem find_header_words_empty (ws : List Word) (tol : ℚ) :
    find_header_words "" ws tol = [] := rfl

theorem headerPos_some (h : String) (ws : List Word) (tol : ℚ) (pos : HeaderPos)
    (hp : headerPos h ws tol = some pos) : pos.header = h ∧ h ≠ "" := by
  constructor
  · rw [headerPos.eq_def] at hp
    cases hfw : find_header_words h ws tol with
    | nil => rw [hfw] at hp; simp at hp
    | cons w rest =>
      rw [hfw] at hp
      simp only [Option.some.injEq] at hp
      rw [← hp]
  · intro hcon
    subst hcon
    rw [headerPos.eq_def, find_header_words_empty] at hp
    simp at hp

theorem establish_header_ne (headers : List String) (words : List Word) (tol : ℚ)
    (b : Boundary) (hb : b ∈ establish_column_boundaries headers words tol) :
    b.header ≠ "" := by
  by_cases h0 : header_positionsOf headers words tol = []
  · rw [establish_column_boundaries] at hb
    simp [h0] at hb
  · rw [establish_eq_mkB _ _ _ h0] at hb
    have hmem : b.header ∈ (mkBoundaries none
        (List.insertionSort byCenter (header_positionsOf headers words tol))).map
          Boundary.header := List.mem_map_of_mem _ hb
    rw [mkBoundaries_map_header] at hmem
    have hmem2 : b.header ∈ (header_positionsOf headers words tol).map HeaderPos.header := by
      have hperm := (List.perm_insertionSort byCenter
        (header_positionsOf headers words tol)).map HeaderPos.header
      exact hperm.mem_iff.mp hmem
    obtain ⟨pos, hpos, hposh⟩ := List.mem_map.mp hmem2
    obtain ⟨hh, _, hsome⟩ := List.mem_filterMap.mp hpos
    obtain ⟨heq, hne⟩ := headerPos_some _ _ _ _ hsome
    rw [← hposh, heq]
    exact hne

/-- All words currently assigned across the column groups, in group order. -/
def allWords (m : List (String × List Word)) : List Word :=
  (m.map Prod.snd).flatten

theorem dappend_keys (m : List (String × List Word)) (k : String) (w : Word) :
    (dappend m k w).map Prod.fst = m.map Prod.fst := by
  induction m with
  | nil => rfl
  | cons p t ih =>
    obtain ⟨k', g⟩ := p
    rw [dappend]
    by_cases h : k' = k
    · rw [if_pos h]
      simp
    · rw [if_neg h]
      simp only [List.map_cons]
      rw [ih]

theorem allWords_dappend (m : List (String × List Word)) (k : String) (w : Word)
    (hk : k ∈ m.map Prod.fst) :
    List.Perm (allWords (dappend m k w)) (w :: allWords m) := by
  induction m with
  | nil => simp at hk
  | cons p t ih =>
    obtain ⟨k', g⟩ := p
    rw [dappend]
    by_cases h : k' = k
    · rw [if_pos h]
      show List.Perm ((g ++ [w]) ++ allWords t) (w :: (g ++ allWords t))
      rw [List.append_assoc]
      exact List.perm_middle
    · rw [if_neg h]
      have hk' : k ∈ t.map Prod.fst := by
        rw [List.map_cons] at hk
        rcases List.mem_cons.mp hk with h1 | h1
        · exact absurd h1.symm h
        · exact h1
      show List.Perm (g ++ allWords (dappend t k w)) (w :: (g ++ allWords t))
      exact (List.Perm.append_left g (ih hk')).trans List.perm_middle

theorem dsetD_forall {α : Type} (P : α → Prop) (m : List (String × α)) (k : String) (v : α)
    (hm : ∀ p ∈ m, P p.2) (hv : P v) : ∀ p ∈ dsetD m k v, P p.2 := by
  induction m with
  | nil =>
    intro p hp
    rw [dsetD] at hp
    rcases List.mem_singleton.mp hp with rfl
    exact hv
  | cons q t ih =>
    obtain ⟨k', v'⟩ := q
    intro p hp
    rw [dsetD] at hp
    by_cases h : k' = k
    · rw [if_pos h] at hp
      rcases List.mem_cons.mp hp with rfl | h2
      · exact hv
      · exact hm p (List.mem_cons_of_mem _ h2)
    · rw [if_neg h] at hp
      rcases List.mem_cons.mp hp with rfl | h2
      · exact hm _ (List.mem_cons_self _ _)
      · exact ih (fun q hq => hm q (List.mem_cons_of_mem _ hq)) p h2

theorem initGroups_forall (bs : List Boundary) :
    ∀ p ∈ initGroups bs, p.2 = ([] : List Word) := by
  have haux : ∀ (bs : List Boundary) (m : List (String × List Word)),
      (∀ p ∈ m, p.2 = ([] : List Word)) →
      ∀ p ∈ bs.foldl (fun m b => dsetD m b.header []) m, p.2 = ([] : List Word) := by
    intro bs
    induction bs with
    | nil => intro m hm; simpa using hm
    | cons b t ih =>
      intro m hm
      rw [List.foldl_cons]
      exact ih _ (dsetD_forall (fun v => v = ([] : List Word)) m b.header [] hm rfl)
  exact haux bs [] (by simp)

theorem allWords_of_empty (m : List (String × List Word))
    (hm : ∀ p ∈ m, p.2 = ([] : List Word)) : allWords m = [] := by
  induction m with
  | nil => rfl
  | cons p t ih =>
    show p.2 ++ allWords t = []
    rw [hm p (List.mem_cons_self _ _), ih (fun q hq => hm q (List.mem_cons_of_mem _ hq))]
    rfl

theorem assignStep_keys (bs : List Boundary) (m : List (String × List Word)) (w : Word) :
    (assignStep bs m w).map Prod.fst = m.map Prod.fst := by
  simp only [assignStep]
  by_cases h : assignColumn bs w.center_x = ""
  · rw [if_pos h]
  · rw [if_neg h]
    exact dappend_keys m _ w

theorem foldl_assign_keys (bs : List Boundary) :
    ∀ (row : List Word) (m : List (String × List Word)),
      (row.foldl (assignStep bs) m).map Prod.fst = m.map Prod.fst := by
  intro row
  induction row with
  | nil => intro m; rfl
  | cons w rest ih =>
    intro m
    rw [List.foldl_cons, ih, assignStep_keys]

theorem dsetD_keys_mem {α : Type} (k s : String) (v : α) :
    ∀ (m : List (String × α)),
      (s ∈ (dsetD m k v).map Prod.fst ↔ s ∈ m.map Prod.fst ∨ s = k) := by
  intro m
  induction m with
  | nil => simp [dsetD]
  | cons q t ih =>
    obtain ⟨k', v'⟩ := q
    rw [dsetD]
    by_cases h : k' = k
    · subst h
      simp only [List.map_cons]
      constructor
      · intro hs
        rcases List.mem_cons.mp hs with h1 | h1
        · exact Or.inr h1
        · exact Or.inl (List.mem_cons_of_mem _ h1)
      · intro hs
        rcases hs with h1 | h1
        · rcases List.mem_cons.mp h1 with h2 | h2
          · exact List.mem_cons.mpr (Or.inl h2)
          · exact List.mem_cons_of_mem _ h2
        · exact List.mem_cons.mpr (Or.inl h1)
    · rw [if_neg h]
      simp only [List.map_cons]
      constructor
      · intro hs
        rcases List.mem_cons.mp hs with h1 | h1
        · exact Or.inl (List.mem_cons.mpr (Or.inl h1))
        · rcases ih.mp h1 with h2 | h2
          · exact Or.inl (List.mem_cons_of_mem _ h2)
          · exact Or.inr h2
      · intro hs
        rcases hs with h1 | h1
        · rcases List.mem_cons.mp h1 with h2 | h2
          · exact List.mem_cons.mpr (Or.inl h2)
          · exact List.mem_cons_of_mem _ (ih.mpr (Or.inl h2))
        · exact List.mem_cons_of_mem _ (ih.mpr (Or.inr h1))

theorem initGroups_keys_mem (s : String) :
    ∀ (bs : List Boundary), s ∈ bs.map Boundary.header →
      s ∈ (initGroups bs).map Prod.fst := by
  have haux : ∀ (bs : List Boundary) (m : List (String × List Word)),
      (s ∈ m.map Prod.fst ∨ s ∈ bs.map Boundary.header) →
      s ∈ (bs.foldl (fun m b => dsetD m b.header []) m).map Prod.fst := by
    intro bs
    induction bs with
    | nil =>
      intro m hm
      rcases hm with h | h
      · exact h
      · simp at h
    | cons b t ih =>
      intro m hm
      rw [List.foldl_cons]
      apply ih
      rcases hm with h | h
      · exact Or.inl ((dsetD_keys_mem _ _ _ _).mpr (Or.inl h))
      · rw [List.map_cons] at h
        rcases List.mem_cons.mp h with h1 | h1
        · exact Or.inl ((dsetD_keys_mem _ _ _ _).mpr (Or.inr h1))
        · exact Or.inr h1
  intro bs hs
  exact haux bs [] (Or.inr hs)

theorem foldl_assign_perm (bs : List Boundary) (hne : bs ≠ [])
    (hhdr : ∀ b ∈ bs, b.header ≠ "") :
    ∀ (row : List Word) (m : List (String × List Word)),
      (∀ s ∈ bs.map Boundary.header, s ∈ m.map Prod.fst) →
      List.Perm (allWords (row.foldl (assignStep bs) m)) (allWords m ++ row) := by
  intro row
  induction row with
  | nil => intro m _; simp
  | cons w rest ih =>
    intro m hm
    rw [List.foldl_cons]
    have hac : assignColumn bs w.center_x ∈ bs.map Boundary.header :=
      assignColumn_mem bs _ hne
    have hacne : assignColumn bs w.center_x ≠ "" := by
      intro hcon
      obtain ⟨b, hb, hbh⟩ := List.mem_map.mp hac
      exact hhdr b hb (by rw [hbh, hcon])
    have hstep : assignStep bs m w = dappend m (assignColumn bs w.center_x) w := by
      simp only [assignStep]
      rw [if_neg hacne]
    have hkeys : ∀ s ∈ bs.map Boundary.header, s ∈ (assignStep bs m w).map Prod.fst := by
      intro s hs
      rw [assignStep_keys]
      exact hm s hs
    have h1 := ih (assignStep bs m w) hkeys
    have h2 : List.Perm (allWords (assignStep bs m w)) (w :: allWords m) := by
      rw [hstep]
      exact allWords_dappend m _ w (hm _ hac)
    refine h1.trans ?_
    refine ((h2.append_right rest).trans ?_)
    exact List.perm_middle.symm

def c2hw1 : Word :=
  { text := "Code", x0 := 90, y0 := 10, x1 := 110, y1 := 20, center_x := 100, center_y := 10 }

def c2hw2 : Word :=
  { text := "Amount", x0 := 290, y0 := 10, x1 := 310, y1 := 20, center_x := 300, center_y := 10 }

def c2r1 : Word :=
  { text := "STD", x0 := 185, y0 := 30, x1 := 195, y1 := 40, center_x := 190, center_y := 35 }

def c2r2 : Word :=
  { text := "5", x0 := 205, y0 := 30, x1 := 215, y1 := 40, center_x := 210, center_y := 35 }

/-- C2: for every row and every non-empty boundary set produced by
`_establish_column_boundaries`, the words collected across the column groups
of `_extract_row_data` are a permutation of the row's words — each word is
assigned to exactly one column, none dropped or duplicated. With headers
"Code" and "Amount" centered at x=100 and x=300 the boundaries are `[0,200)`
and `[200,inf)`; a word centered at 190 is assigned to "Code" and one at 210
to "Amount". -/
theorem C2_row_assignment_total :
    (∀ (headers : List String) (words : List Word) (tol : ℚ) (row : List Word),
      establish_column_boundaries headers words tol ≠ [] →
      List.Perm
        (allWords (wordGroups (establish_column_boundaries headers words tol) row))
        row) ∧
    establish_column_boundaries ["Code", "Amount"] [c2hw1, c2hw2] 5 =
      [{ header := "Code", left_x := 0, right_x := XB.fin 200, header_center := 100 },
       { header := "Amount", left_x := 200, right_x := XB.inf, header_center := 300 }] ∧
    assignColumn (establish_column_boundaries ["Code", "Amount"] [c2hw1, c2hw2] 5) 190 =
      "Code" ∧
    assignColumn (establish_column_boundaries ["Code", "Amount"] [c2hw1, c2hw2] 5) 210 =
      "Amount" := by
  refine ⟨?_, by decide, by decide, by decide⟩
  intro headers words tol row hne
  have hhdr : ∀ b ∈ establish_column_boundaries headers words tol, b.header ≠ "" :=
    fun b hb => establish_header_ne headers words tol b hb
  rw [wordGroups]
  have hkeys : ∀ s ∈ (establish_column_boundaries headers words tol).map Boundary.header,
      s ∈ (initGroups (establish_column_boundaries headers words tol)).map Prod.fst :=
    fun s hs => initGroups_keys_mem s _ hs
  have hperm := foldl_assign_perm _ hne hhdr row _ hkeys
  rw [allWords_of_empty _ (initGroups_forall _)] at hperm
  simpa using hperm

/-- Witness for C2's totality at the Scenario C table with one data row. -/
theorem C2_row_assignment_total_w :
    establish_column_boundaries ["Code", "Amount"] [c2hw1, c2hw2] 5 ≠ [] ∧
    List.Perm
      (allWords (wordGroups (establish_column_boundaries ["Code", "Amount"] [c2hw1, c2hw2] 5)
        [c2r1, c2r2]))
      [c2r1, c2r2] :=
  ⟨by decide,
    C2_row_assignment_total.1 ["Code", "Amount"] [c2hw1, c2hw2] 5 [c2r1, c2r2] (by decide)⟩

theorem dsetD_keys_fresh {α : Type} (k : String) (v : α) :
    ∀ (m : List (String × α)), k ∉ m.map Prod.fst →
      (dsetD m k v).map Prod.fst = m.map Prod.fst ++ [k] := by
  intro m
  induction m with
  | nil => intro _; rfl
  | cons q t ih =>
    obtain ⟨k', v'⟩ := q
    intro h
    rw [dsetD]
    have hne : k' ≠ k := by
      intro hcon
      apply h
      rw [List.map_cons]
      exact List.mem_cons.mpr (Or.inl hcon.symm)
    rw [if_neg hne]
    simp only [List.map_cons, List.cons_append]
    rw [ih (fun hc => h (List.mem_cons_of_mem _ hc))]

theorem initGroups_keys (bs : List Boundary) (hnd : (bs.map Boundary.header).Nodup) :
    (initGroups bs).map Prod.fst = bs.map Boundary.header := by
  have haux : ∀ (bs : List Boundary) (m : List (String × List Word)),
      (∀ b ∈ bs, b.header ∉ m.map Prod.fst) → (bs.map Boundary.header).Nodup →
      (bs.foldl (fun m b => dsetD m b.header []) m).map Prod.fst =
        m.map Prod.fst ++ bs.map Boundary.header := by
    intro bs
    induction bs with
    | nil => intro m _ _; simp
    | cons b t ih =>
      intro m hfresh hnd2
      rw [List.foldl_cons]
      have hbm : b.header ∉ m.map Prod.fst := hfresh b (List.mem_cons_self _ _)
      have hset := dsetD_keys_fresh b.header ([] : List Word) m hbm
      have hnotmem : b.header ∉ t.map Boundary.header := by
        rw [List.map_cons] at hnd2
        exact (List.nodup_cons.mp hnd2).1
      have hfresh2 : ∀ b' ∈ t, b'.header ∉ (dsetD m b.header []).map Prod.fst := by
        intro b' hb'
        rw [hset]
        intro hcon
        rcases List.mem_append.mp hcon with h1 | h1
        · exact hfresh b' (List.mem_cons_of_mem _ hb') h1
        · rcases List.mem_singleton.mp h1 with h2
          exact hnotmem (h2 ▸ List.mem_map_of_mem Boundary.header hb')
      have hnd3 : (t.map Boundary.header).Nodup := by
        rw [List.map_cons] at hnd2
        exact (List.nodup_cons.mp hnd2).2
      rw [ih _ hfresh2 hnd3, hset]
      simp
  have := haux bs [] (by simp) hnd
  rw [initGroups, this]
  rfl

theorem extract_row_data_keys (bs : List Boundary) (row : List Word)
    (hnd : (bs.map Boundary.header).Nodup) :
    (extract_row_data bs row).map Prod.fst = bs.map Boundary.header := by
  rw [extract_row_data, List.map_map]
  have hcomp : (Prod.fst ∘ fun p : String × List Word => (p.1, combineCell p.2)) =
      Prod.fst := rfl
  rw [hcomp, wordGroups, foldl_assign_keys, initGroups_keys _ hnd]

theorem header_positions_located (headers : List String) (words : List Word) (tol : ℚ)
    (hloc : ∀ h ∈ headers, find_header_words h words tol ≠ []) :
    (header_positionsOf headers words tol).map HeaderPos.header = headers := by
  induction headers with
  | nil => rfl
  | cons h t ih =>
    rw [header_positionsOf, List.filterMap_cons]
    cases hhp : headerPos h words tol with
    | none =>
      exfalso
      have hne := hloc h (List.mem_cons_self _ _)
      cases hfw : find_header_words h words tol with
      | nil => exact hne hfw
      | cons w rest =>
        rw [headerPos.eq_def, hfw] at hhp
        simp at hhp
    | some pos =>
      rw [List.map_cons]
      rw [(headerPos_some h words tol pos hhp).1]
      have ihr := ih (fun h2 hm => hloc h2 (List.mem_cons_of_mem _ hm))
      rw [header_positionsOf] at ihr
      rw [ihr]

def c7hc : Word :=
  { text := "Code", x0 := 90, y0 := 10, x1 := 110, y1 := 20, center_x := 100, center_y := 10 }

def c7ha : Word :=
  { text := "Amount", x0 := 290, y0 := 10, x1 := 310, y1 := 20, center_x := 300, center_y := 10 }

def c7d1 : Word :=
  { text := "STD", x0 := 95, y0 := 30, x1 := 105, y1 := 40, center_x := 100, center_y := 30 }

def c7d2 : Word :=
  { text := "5", x0 := 295, y0 := 30, x1 := 305, y1 := 40, center_x := 300, center_y := 30 }

/-- C7 counterexample: requesting headers in the order `["Amount","Code"]`
(right-to-left of their page positions) yields records whose keys are in
sorted boundary order `["Code","Amount"]`, not the caller's header order. -/
theorem C7_key_order_counterexample :
    (extract_table_data [c7hc, c7ha, c7d1, c7d2] 5 ["Amount", "Code"] none).map
      (fun r => r.map Prod.fst) = [["Code", "Amount"]] ∧
    [["Code", "Amount"]] ≠ [["Amount", "Code"]] := by decide

def d7headers : List String := ["Code", "Alpha", "Beta", "Gamma", "Delta", "Epsil", "Omega"]

def d7words : List Word :=
  [{ text := "Code", x0 := 90, y0 := 10, x1 := 110, y1 := 20, center_x := 100, center_y := 10 },
   { text := "Alpha", x0 := 190, y0 := 10, x1 := 210, y1 := 20, center_x := 200, center_y := 10 },
   { text := "Beta", x0 := 290, y0 := 10, x1 := 310, y1 := 20, center_x := 300, center_y := 10 },
   { text := "Gamma", x0 := 390, y0 := 10, x1 := 410, y1 := 20, center_x := 400, center_y := 10 },
   { text := "Delta", x0 := 490, y0 := 10, x1 := 510, y1 := 20, center_x := 500, center_y := 10 },
   { text := "Epsil", x0 := 590, y0 := 10, x1 := 610, y1 := 20, center_x := 600, center_y := 10 },
   { text := "Omega", x0 := 690, y0 := 10, x1 := 710, y1 := 20, center_x := 700, center_y := 10 },
   { text := "STD", x0 := 95, y0 := 50, x1 := 105, y1 := 60, center_x := 100, center_y := 50 },
   { text := "val", x0 := 695, y0 := 50, x1 := 705, y1 := 60, center_x := 700, center_y := 50 }]

/-- C7 (amended): each row record has exactly one key per distinct boundary —
the key list equals the boundary header list, which, when every requested
header is located, is a permutation of the requested headers in ascending
header-center order rather than the caller's order; columns with no assigned
words are null, with no column shifting (7 requested headers with words under
only the first and last yield a 7-key record with 5 nulls). -/
theorem C7_keys_amended :
    (∀ (bs : List Boundary) (row : List Word), (bs.map Boundary.header).Nodup →
      (extract_row_data bs row).map Prod.fst = bs.map Boundary.header) ∧
    (∀ (headers : List String) (words : List Word) (tol : ℚ),
      (∀ h ∈ headers, find_header_words h words tol ≠ []) →
      List.Perm ((establish_column_boundaries headers words tol).map Boundary.header)
        headers) ∧
    extract_table_data d7words 5 d7headers none =
      [[("Code", some "STD"), ("Alpha", none), ("Beta", none), ("Gamma", none),
        ("Delta", none), ("Epsil", none), ("Omega", some "val")]] := by
  refine ⟨fun bs row hnd => extract_row_data_keys bs row hnd, ?_, by decide⟩
  intro headers words tol hloc
  have hall := header_positions_located headers words tol hloc
  by_cases h0 : header_positionsOf headers words tol = []
  · have hempty : headers = [] := by rw [← hall, h0]; rfl
    subst hempty
    rw [establish_column_boundaries, if_pos h0]
    simp
  · rw [establish_eq_mkB _ _ _ h0, mkBoundaries_map_header]
    have hperm := (List.perm_insertionSort byCenter
      (header_positionsOf headers words tol)).map HeaderPos.header
    rw [hall] at hperm
    exact hperm

def c7bsA : List Boundary :=
  [{ header := "A", left_x := 0, right_x := XB.inf, header_center := 0 }]

/-- Witness for the amended C7's key-list part. -/
theorem C7_keys_amended_w :
    (c7bsA.map Boundary.header).Nodup ∧
    (extract_row_data c7bsA []).map Prod.fst = c7bsA.map Boundary.header :=
  ⟨by decide, C7_keys_amended.1 c7bsA [] (by decide)⟩
